import Mathlib

/-!
Verification of the recurrence-analysis pipeline behind
`examples/tutorials/recurrence_network.py`.

The script itself contributes `logistic_map`; the recurrence engine
(`RecurrencePlot` / `RecurrenceNetwork` from `pyunicorn.timeseries`) is not
part of the sources, so its components are modelled from the specification
(spec sections 3 and 4).  Real numbers are modelled by `ℚ`.
-/

namespace RecAnalysis

/-- Translation of the update rule inside `logistic_map`
(recurrence_network.py, line 43): `x ↦ r * x * (1 - x)`. -/
def logisticStep (r x : ℚ) : ℚ := r * x * (1 - x)

/-- Value at index `i` of the logistic-map trajectory started at `x0`:
entry 0 is `x0`, entry `i+1` is `logisticStep r` of entry `i`. -/
def logisticTraj (x0 r : ℚ) : ℕ → ℚ
  | 0 => x0
  | i + 1 => logisticStep r (logisticTraj x0 r i)

/-- Translation of `logistic_map(x0, r, T)` (recurrence_network.py, lines
27-45): allocate an array of length `T`, write `x0` at index 0, then fill
index `i` with `r * x_(i-1) * (1 - x_(i-1))` for `i = 1 .. T-1`.  The write
`timeSeries[0] = x0` is out of bounds when `T = 0`, modelled as `none`. -/
def logistic_map (x0 r : ℚ) (T : ℕ) : Option (List ℚ) :=
  if T = 0 then none
  else some ((List.range T).map (logisticTraj x0 r))

/-- Helper: reading a mapped range list at an in-range index. -/
theorem getD_range_map (f : ℕ → ℚ) (T i : ℕ) (h : i < T) :
    (((List.range T).map f).getD i 0) = f i := by
  rw [List.getD_eq_getElem ((List.range T).map f) 0 (by simpa using h)]
  simp

/-- C9: for `T ≥ 1`, `logistic_map x0 r T` returns a sequence of exactly `T`
numbers whose entry 0 is `x0` and whose entry `i` is
`r * s[i-1] * (1 - s[i-1])` for every `1 ≤ i < T`. -/
theorem logistic_map_spec (x0 r : ℚ) (T : ℕ) (hT : 1 ≤ T) :
    ∃ s : List ℚ, logistic_map x0 r T = some s ∧ s.length = T ∧
      s.getD 0 0 = x0 ∧
      ∀ i, 1 ≤ i → i < T →
        s.getD i 0 = r * s.getD (i - 1) 0 * (1 - s.getD (i - 1) 0) := by
  have hT0 : T ≠ 0 := Nat.one_le_iff_ne_zero.mp hT
  refine ⟨(List.range T).map (logisticTraj x0 r), ?_, by simp, ?_, ?_⟩
  · simp [logistic_map, hT0]
  · rw [getD_range_map _ _ _ (Nat.lt_of_lt_of_le Nat.zero_lt_one hT)]
    rfl
  · intro i h1 hiT
    have hi1T : i - 1 < T := Nat.lt_of_le_of_lt (Nat.sub_le i 1) hiT
    rw [getD_range_map _ _ _ hiT, getD_range_map _ _ _ hi1T]
    obtain ⟨j, rfl⟩ : ∃ j, i = j + 1 := ⟨i - 1, (Nat.succ_pred_eq_of_pos h1).symm⟩
    simp [logisticTraj, logisticStep]

/-- Witness for C9 at `x0 = 7/10`, `r = 2`, `T = 3`. -/
theorem logistic_map_spec_witness :
    1 ≤ 3 ∧
    ∃ s : List ℚ, logistic_map (7/10) 2 3 = some s ∧ s.length = 3 ∧
      s.getD 0 0 = 7/10 ∧
      ∀ i, 1 ≤ i → i < 3 →
        s.getD i 0 = 2 * s.getD (i - 1) 0 * (1 - s.getD (i - 1) 0) :=
  ⟨by decide, logistic_map_spec (7/10) 2 3 (by decide)⟩

/-- C10: `logistic_map` fails (out-of-bounds write to index 0 of a length-0
array) exactly when `T = 0`, and succeeds for every `T ≥ 1`. -/
theorem logistic_map_totality (x0 r : ℚ) :
    logistic_map x0 r 0 = none ∧
    ∀ T : ℕ, 1 ≤ T → ∃ s, logistic_map x0 r T = some s := by
  constructor
  · simp [logistic_map]
  · intro T hT
    exact ⟨_, (logistic_map_spec x0 r T hT).choose_spec.1⟩

/-- Witness for C10 at `x0 = 1/2`, `r = 4` (the inner hypothesis `1 ≤ T`
discharged at `T = 2`). -/
theorem logistic_map_totality_witness :
    logistic_map (1/2) 4 0 = none ∧ (1 ≤ 2 ∧ ∃ s, logistic_map (1/2) 4 2 = some s) :=
  ⟨(logistic_map_totality (1/2) 4).1,
    by decide, (logistic_map_totality (1/2) 4).2 2 (by decide)⟩

/-- Modelled from the spec: the Embedder (spec 4.1) of `pyunicorn.timeseries`,
whose implementation is not in the sources.  Vector `i` is
`(x_i, x_(i+tau), ..., x_(i+(dim-1)*tau))` for `i = 0 .. N-1` with
`N = T - (dim-1)*tau`; a configuration error (`none`) when `dim < 1` or
`N < 1` (series too short for the requested embedding). -/
def embed (ts : List ℚ) (dim tau : ℕ) : Option (List (List ℚ)) :=
  if dim = 0 ∨ ts.length ≤ (dim - 1) * tau then none
  else some ((List.range (ts.length - (dim - 1) * tau)).map
    (fun i => (List.range dim).map (fun k => ts.getD (i + k * tau) 0)))

/-- Helper: mapping `getD` over the index range reproduces the list. -/
theorem range_length_map_getD (l : List ℚ) :
    (List.range l.length).map (fun i => l.getD i 0) = l := by
  apply List.ext_getElem (by simp)
  intro i h1 h2
  simp only [List.getElem_map, List.getElem_range]
  rw [List.getD_eq_getElem l 0 h2]

/-- C3: with `dim = 1`, `tau = 0` the embedding is the identity: the output
has exactly `N = T` vectors and is the series reinterpreted as 1-D points. -/
theorem embed_dim1_identity (ts : List ℚ) (h : 1 ≤ ts.length) :
    ∃ v, embed ts 1 0 = some v ∧ v.length = ts.length ∧
      v = ts.map (fun x => [x]) := by
  have hcond : ¬(1 = 0 ∨ ts.length ≤ (1 - 1) * 0) := by
    push_neg
    exact ⟨one_ne_zero, by simpa using h⟩
  refine ⟨_, by rw [embed, if_neg hcond], by simp, ?_⟩
  have : (List.range (ts.length - (1 - 1) * 0)).map
      (fun i => (List.range 1).map (fun k => ts.getD (i + k * 0) 0)) =
      (List.range ts.length).map (fun i => [ts.getD i 0]) := by
    simp
  rw [this,
    show (fun i => [ts.getD i 0]) = ((fun x : ℚ => [x]) ∘ (fun i => ts.getD i 0))
      from rfl,
    ← List.map_map, range_length_map_getD]

/-- Witness for C3 at `ts = [3, 5]`. -/
theorem embed_dim1_identity_witness :
    1 ≤ ([(3 : ℚ), 5]).length ∧
    ∃ v, embed [(3 : ℚ), 5] 1 0 = some v ∧ v.length = ([(3 : ℚ), 5]).length ∧
      v = ([(3 : ℚ), 5]).map (fun x => [x]) :=
  ⟨by decide, embed_dim1_identity [(3 : ℚ), 5] (by decide)⟩

/-- Modelled from the spec: the supremum (Chebyshev) distance of the
DistanceMatrixComputer (spec 4.2), componentwise maximum absolute
difference. -/
def supDist (u v : List ℚ) : ℚ :=
  (List.zipWith (fun a b => |a - b|) u v).foldr max 0

/-- Modelled from the spec: the Manhattan distance of the
DistanceMatrixComputer (spec 4.2), sum of absolute differences. -/
def manhattanDist (u v : List ℚ) : ℚ :=
  (List.zipWith (fun a b => |a - b|) u v).sum

/-- Modelled from the spec: the DistanceMatrixComputer (spec 4.2) of
`pyunicorn.timeseries`, whose implementation is not in the sources,
parameterized by the metric function `d` (the Euclidean branch needs real
square roots and is not used by any claim; the script uses `supremum`). -/
def distanceMatrix (pts : List (List ℚ)) (d : List ℚ → List ℚ → ℚ) :
    ℕ → ℕ → ℚ :=
  fun i j => d (pts.getD i []) (pts.getD j [])

/-- Modelled from the spec: the RecurrenceMatrixBuilder (spec 4.3) of
`pyunicorn.timeseries`, whose implementation is not in the sources:
entry `(i,j)` is 1 iff `D i j ≤ eps` for `i ≠ j`; the diagonal carries no
recurrence (spec 3, RecurrenceMatrix).  The fixed-recurrence-rate mode
builds the same matrix at the threshold `rrThreshold` defined below. -/
def recmat (D : ℕ → ℕ → ℚ) (eps : ℚ) (i j : ℕ) : Bool :=
  decide (i ≠ j ∧ D i j ≤ eps)

/-- Off-diagonal index pairs of an `N×N` matrix, row-major. -/
def offDiagPairs (N : ℕ) : List (ℕ × ℕ) :=
  (List.range N).flatMap (fun i =>
    ((List.range N).filter (fun j => j != i)).map (fun j => (i, j)))

/-- Modelled from the spec: number of off-diagonal 1-entries of the
recurrence matrix (the recurrence points of spec 4.4). -/
def recPointCount (N : ℕ) (R : ℕ → ℕ → Bool) : ℕ :=
  ((offDiagPairs N).filter (fun p => R p.1 p.2)).length

/-- Modelled from the spec: recurrence rate (spec 4.4), the number of
off-diagonal 1-entries over `N² − N`. -/
def recurrence_rate (N : ℕ) (R : ℕ → ℕ → Bool) : ℚ :=
  (recPointCount N R : ℚ) / ((N ^ 2 - N : ℕ) : ℚ)

/-- Modelled from the spec: the RecurrenceNetworkBuilder (spec 4.5) edge
list, both directions of every undirected edge: ordered pairs `(i,j)`,
`i ≠ j`, with `R i j = 1`. -/
def orderedEdges (N : ℕ) (R : ℕ → ℕ → Bool) : List (ℕ × ℕ) :=
  (offDiagPairs N).filter (fun p => R p.1 p.2)

/-- Membership in `offDiagPairs`. -/
theorem mem_offDiagPairs {N : ℕ} {p : ℕ × ℕ} :
    p ∈ offDiagPairs N ↔ p.1 < N ∧ p.2 < N ∧ p.1 ≠ p.2 := by
  cases p with
  | mk i j =>
    simp only [offDiagPairs, List.mem_flatMap, List.mem_map, List.mem_filter,
      List.mem_range, bne_iff_ne, Prod.mk.injEq]
    constructor
    · rintro ⟨a, ha, b, ⟨hb, hba⟩, rfl, rfl⟩
      exact ⟨ha, hb, fun h => hba h.symm⟩
    · rintro ⟨hi, hj, hij⟩
      exact ⟨i, hi, j, ⟨hj, fun h => hij h.symm⟩, rfl, rfl⟩

/-- Length of `offDiagPairs` is `N² − N`. -/
theorem length_offDiagPairs (N : ℕ) : (offDiagPairs N).length = N ^ 2 - N := by
  have hinner : ∀ i ∈ List.range N,
      (((List.range N).filter (fun j => j != i)).map (fun j => (i, j))).length
        = N - 1 := by
    intro i hi
    rw [List.length_map, ← List.Nodup.erase_eq_filter (List.nodup_range N),
      List.length_erase_of_mem hi, List.length_range]
  rw [offDiagPairs, List.length_flatMap]
  simp only [Function.comp_def]
  rw [List.map_congr_left hinner]
  simp only [List.map_const', List.length_range, List.sum_replicate, smul_eq_mul]
  cases N with
  | zero => simp
  | succ n => simp [pow_two]; ring_nf; omega

/-- C4: on every distance matrix, for thresholds `e1 ≤ e2` the recurrence
rate of the fixed-threshold recurrence matrix at `e1` is at most the one at
`e2` (recurrence rate is monotonically non-decreasing in epsilon). -/
theorem recurrence_rate_mono_threshold (N : ℕ) (D : ℕ → ℕ → ℚ) (e1 e2 : ℚ)
    (h : e1 ≤ e2) :
    recurrence_rate N (recmat D e1) ≤ recurrence_rate N (recmat D e2) := by
  have hc : recPointCount N (recmat D e1) ≤ recPointCount N (recmat D e2) := by
    unfold recPointCount
    rw [← List.countP_eq_length_filter, ← List.countP_eq_length_filter]
    apply List.countP_mono_left
    intro p _ hp
    rcases of_decide_eq_true hp with ⟨h1, h2⟩
    exact decide_eq_true (p := p.1 ≠ p.2 ∧ D p.1 p.2 ≤ e2) ⟨h1, le_trans h2 h⟩
  unfold recurrence_rate
  rcases Nat.eq_zero_or_pos (N ^ 2 - N) with hM | hM
  · simp [hM]
  · have hMq : (0 : ℚ) < ((N ^ 2 - N : ℕ) : ℚ) := by exact_mod_cast hM
    exact (div_le_div_iff_of_pos_right hMq).mpr (by exact_mod_cast hc)

/-- Witness for C4 at `N = 2`, `D i j = if i = j then 0 else 1`,
`e1 = 0 ≤ e2 = 1`. -/
theorem recurrence_rate_mono_threshold_witness :
    (0 : ℚ) ≤ 1 ∧
    recurrence_rate 2 (recmat (fun i j => if i = j then 0 else 1) 0) ≤
      recurrence_rate 2 (recmat (fun i j => if i = j then 0 else 1) 1) :=
  ⟨by decide,
    recurrence_rate_mono_threshold 2 (fun i j => if i = j then 0 else 1) 0 1
      (by decide)⟩

/-- C5: the recurrence matrix built from a symmetric distance matrix (at any
threshold, hence in either mode) is symmetric, its off-diagonal entry
`(i,j)` is 1 iff `D i j ≤ eps`, its diagonal is 0, the recurrence rate
counts off-diagonal entries only, and no diagonal pair is an edge of the
derived network. -/
theorem recmat_invariants (N : ℕ) (D : ℕ → ℕ → ℚ) (eps : ℚ)
    (hsym : ∀ i < N, ∀ j < N, D i j = D j i) :
    (∀ i < N, ∀ j < N, recmat D eps i j = recmat D eps j i) ∧
    (∀ i < N, ∀ j < N, i ≠ j → (recmat D eps i j = true ↔ D i j ≤ eps)) ∧
    (∀ i, recmat D eps i i = false) ∧
    recurrence_rate N (recmat D eps) =
      ((((offDiagPairs N).filter (fun p => recmat D eps p.1 p.2)).length : ℚ) /
        ((N ^ 2 - N : ℕ) : ℚ)) ∧
    (∀ i, (i, i) ∉ orderedEdges N (recmat D eps)) := by
  refine ⟨?_, ?_, ?_, rfl, ?_⟩
  · intro i hi j hj
    unfold recmat
    rw [decide_eq_decide, hsym i hi j hj]
    constructor <;> rintro ⟨h1, h2⟩ <;> exact ⟨Ne.symm h1, h2⟩
  · intro i _ j _ hij
    simp [recmat, hij]
  · intro i
    simp [recmat]
  · intro i hmem
    rcases List.mem_filter.mp hmem with ⟨hmem', _⟩
    exact (mem_offDiagPairs.mp hmem').2.2 rfl

/-- Witness for C5 at `N = 2`, `D i j = if i = j then 0 else 1`,
`eps = 1/2`. -/
theorem recmat_invariants_witness :
    (∀ i < 2, ∀ j < 2, (fun i j : ℕ => if i = j then (0 : ℚ) else 1) i j =
      (fun i j : ℕ => if i = j then (0 : ℚ) else 1) j i) ∧
    ((∀ i < 2, ∀ j < 2,
        recmat (fun i j : ℕ => if i = j then (0 : ℚ) else 1) (1/2) i j =
        recmat (fun i j : ℕ => if i = j then (0 : ℚ) else 1) (1/2) j i) ∧
     (∀ i < 2, ∀ j < 2, i ≠ j →
        (recmat (fun i j : ℕ => if i = j then (0 : ℚ) else 1) (1/2) i j = true ↔
          (fun i j : ℕ => if i = j then (0 : ℚ) else 1) i j ≤ 1/2)) ∧
     (∀ i, recmat (fun i j : ℕ => if i = j then (0 : ℚ) else 1) (1/2) i i
        = false) ∧
     recurrence_rate 2 (recmat (fun i j : ℕ => if i = j then (0 : ℚ) else 1)
        (1/2)) =
       ((((offDiagPairs 2).filter (fun p =>
          recmat (fun i j : ℕ => if i = j then (0 : ℚ) else 1) (1/2)
            p.1 p.2)).length : ℚ) / ((2 ^ 2 - 2 : ℕ) : ℚ)) ∧
     (∀ i, (i, i) ∉ orderedEdges 2
        (recmat (fun i j : ℕ => if i = j then (0 : ℚ) else 1) (1/2)))) :=
  ⟨by decide,
    recmat_invariants 2 (fun i j : ℕ => if i = j then (0 : ℚ) else 1) (1/2)
      (by decide)⟩

/-- Off-diagonal entries of the distance matrix, in row-major order. -/
def offDiagDistances (N : ℕ) (D : ℕ → ℕ → ℚ) : List ℚ :=
  (offDiagPairs N).map (fun p => D p.1 p.2)

/-- Modelled from the spec: threshold selection of the fixed-recurrence-rate
mode (spec 4.3) of `pyunicorn.timeseries`, whose implementation is not in
the sources: the `rr`-quantile of the off-diagonal distance values, i.e. the
`⌈rr·M⌉`-th smallest off-diagonal distance (`M = N² − N`), so that the
fraction of off-diagonal pairs with distance up to it is at least `rr`. -/
def rrThreshold (N : ℕ) (D : ℕ → ℕ → ℚ) (rr : ℚ) : ℚ :=
  ((offDiagDistances N D).insertionSort (· ≤ ·)).getD
    ((⌈rr * ((offDiagDistances N D).length : ℚ)⌉).toNat - 1) 0

/-- Helper: in a `≤`-sorted rational list, the first `k` elements are all at
most the element at index `k - 1`. -/
theorem sorted_take_le {ds : List ℚ} (hs : ds.Sorted (· ≤ ·)) {k : ℕ}
    (hk1 : 1 ≤ k) (hkM : k ≤ ds.length) :
    ∀ x ∈ ds.take k, x ≤ ds.getD (k - 1) 0 := by
  intro x hx
  rcases List.mem_iff_getElem.mp hx with ⟨i, hi, rfl⟩
  have hik : i < k := lt_of_lt_of_le hi (by simp)
  have hiM : i < ds.length := lt_of_lt_of_le hik hkM
  have hk1M : k - 1 < ds.length := lt_of_lt_of_le (Nat.sub_lt hk1 one_pos) hkM
  rw [List.getElem_take, List.getD_eq_getElem ds 0 hk1M]
  exact hs.rel_get_of_le (a := ⟨i, hiM⟩) (b := ⟨k - 1, hk1M⟩)
    (by simpa using Nat.le_sub_one_of_lt hik)

/-- Helper: the number of off-diagonal recurrence points at threshold `t`
is the number of off-diagonal distances at most `t`. -/
theorem recPointCount_eq_countP (N : ℕ) (D : ℕ → ℕ → ℚ) (t : ℚ) :
    recPointCount N (recmat D t) =
      (offDiagDistances N D).countP (fun x => decide (x ≤ t)) := by
  unfold recPointCount offDiagDistances
  rw [← List.countP_eq_length_filter, List.countP_map]
  apply List.countP_congr
  intro p hp
  have hne : p.1 ≠ p.2 := (mem_offDiagPairs.mp hp).2.2
  simp [recmat, hne, Function.comp]

/-- C2: in fixed-recurrence-rate mode the realized recurrence rate is at
least the requested `rr ∈ (0,1]`, and the threshold chosen for a smaller
requested rate is at most the one chosen for a larger requested rate. -/
theorem rr_mode_properties (N : ℕ) (D : ℕ → ℕ → ℚ) (rr rr1 rr2 : ℚ)
    (hN : 2 ≤ N) (h0 : 0 < rr) (h1 : rr ≤ 1)
    (h0' : 0 < rr1) (h12 : rr1 < rr2) (h2 : rr2 ≤ 1) :
    rr ≤ recurrence_rate N (recmat D (rrThreshold N D rr)) ∧
    rrThreshold N D rr1 ≤ rrThreshold N D rr2 := by
  set ds := (offDiagDistances N D).insertionSort (· ≤ ·) with hds
  have hperm : ds.Perm (offDiagDistances N D) := List.perm_insertionSort _ _
  have hsorted : ds.Sorted (· ≤ ·) := List.sorted_insertionSort _ _
  have hMdef : (offDiagDistances N D).length = N ^ 2 - N := by
    rw [offDiagDistances, List.length_map, length_offDiagPairs]
  have hM2 : 2 ≤ N ^ 2 - N := by
    obtain ⟨m, rfl⟩ : ∃ m, N = m + 2 := ⟨N - 2, by omega⟩
    have hsq : (m + 2) ^ 2 = m * m + 4 * m + 4 := by ring
    omega
  have hdsM : ds.length = N ^ 2 - N := by rw [hperm.length_eq, hMdef]
  have hMq : (0 : ℚ) < ((N ^ 2 - N : ℕ) : ℚ) := by
    exact_mod_cast lt_of_lt_of_le zero_lt_two hM2
  -- bounds on the selected order-statistic index, for any rate q ∈ (0,1]
  have hkbounds : ∀ q : ℚ, 0 < q → q ≤ 1 →
      1 ≤ (⌈q * ((offDiagDistances N D).length : ℚ)⌉).toNat ∧
      (⌈q * ((offDiagDistances N D).length : ℚ)⌉).toNat ≤ N ^ 2 - N := by
    intro q hq0 hq1
    have hMq' : (0 : ℚ) < ((offDiagDistances N D).length : ℚ) := by
      rw [hMdef]; exact hMq
    have hpos : (0 : ℤ) < ⌈q * ((offDiagDistances N D).length : ℚ)⌉ :=
      Int.ceil_pos.mpr (mul_pos hq0 hMq')
    constructor
    · omega
    · have hle : ⌈q * ((offDiagDistances N D).length : ℚ)⌉ ≤
          ((N ^ 2 - N : ℕ) : ℤ) := by
        apply Int.ceil_le.mpr
        rw [hMdef]
        push_cast
        nlinarith [hMq]
      omega
  constructor
  · -- realized recurrence rate is at least rr
    set k := (⌈rr * ((offDiagDistances N D).length : ℚ)⌉).toNat with hk
    obtain ⟨hk1, hkM⟩ := hkbounds rr h0 h1
    have hkds : k ≤ ds.length := by omega
    set t := rrThreshold N D rr with ht
    have htds : t = ds.getD (k - 1) 0 := rfl
    have hcount : k ≤ (offDiagDistances N D).countP (fun x => decide (x ≤ t)) := by
      rw [← hperm.countP_eq]
      have hsplit : ds = ds.take k ++ ds.drop k := (List.take_append_drop k ds).symm
      calc k = (ds.take k).length := by rw [List.length_take]; omega
        _ = (ds.take k).countP (fun x => decide (x ≤ t)) := by
            symm
            rw [List.countP_eq_length]
            intro a ha
            simpa using htds ▸ sorted_take_le hsorted hk1 hkds a ha
        _ ≤ (ds.take k ++ ds.drop k).countP (fun x => decide (x ≤ t)) := by
            rw [List.countP_append]; omega
        _ = ds.countP (fun x => decide (x ≤ t)) := by rw [← hsplit]
    have hcount' : (k : ℚ) ≤ (recPointCount N (recmat D t) : ℚ) := by
      rw [recPointCount_eq_countP]
      exact_mod_cast hcount
    have hrrk : rr * ((N ^ 2 - N : ℕ) : ℚ) ≤ (k : ℚ) := by
      have h₁ : rr * ((offDiagDistances N D).length : ℚ) ≤
          (⌈rr * ((offDiagDistances N D).length : ℚ)⌉ : ℚ) := Int.le_ceil _
      have h₂ : (0 : ℤ) ≤ ⌈rr * ((offDiagDistances N D).length : ℚ)⌉ := by
        obtain ⟨hk1', _⟩ := hkbounds rr h0 h1
        omega
      have h₃ : ((⌈rr * ((offDiagDistances N D).length : ℚ)⌉.toNat : ℕ) : ℚ)
          = ((⌈rr * ((offDiagDistances N D).length : ℚ)⌉ : ℤ) : ℚ) := by
        exact_mod_cast congrArg (fun z : ℤ => (z : ℚ)) (Int.toNat_of_nonneg h₂)
      rw [hk]
      calc rr * ((N ^ 2 - N : ℕ) : ℚ)
          = rr * ((offDiagDistances N D).length : ℚ) := by rw [hMdef]
        _ ≤ (⌈rr * ((offDiagDistances N D).length : ℚ)⌉ : ℚ) := h₁
        _ = (((⌈rr * ((offDiagDistances N D).length : ℚ)⌉).toNat : ℕ) : ℚ) :=
            h₃.symm
    rw [recurrence_rate]
    rw [le_div_iff₀ hMq]
    calc rr * ((N ^ 2 - N : ℕ) : ℚ) ≤ (k : ℚ) := hrrk
      _ ≤ (recPointCount N (recmat D t) : ℚ) := hcount'
  · -- threshold monotone in the requested rate
    set k1 := (⌈rr1 * ((offDiagDistances N D).length : ℚ)⌉).toNat with hk1def
    set k2 := (⌈rr2 * ((offDiagDistances N D).length : ℚ)⌉).toNat with hk2def
    obtain ⟨h11, h1M⟩ := hkbounds rr1 h0' (le_of_lt (lt_of_lt_of_le h12 h2))
    obtain ⟨h21, h2M⟩ := hkbounds rr2 (lt_trans h0' h12) h2
    have hk12 : k1 ≤ k2 := by
      have : ⌈rr1 * ((offDiagDistances N D).length : ℚ)⌉ ≤
          ⌈rr2 * ((offDiagDistances N D).length : ℚ)⌉ := by
        apply Int.ceil_le_ceil
        have hMq' : (0 : ℚ) ≤ ((offDiagDistances N D).length : ℚ) := by
          positivity
        nlinarith
      omega
    have hb1 : k1 - 1 < ds.length := by omega
    have hb2 : k2 - 1 < ds.length := by omega
    show ds.getD (k1 - 1) 0 ≤ ds.getD (k2 - 1) 0
    rw [List.getD_eq_getElem ds 0 hb1, List.getD_eq_getElem ds 0 hb2]
    exact hsorted.rel_get_of_le (a := ⟨k1 - 1, hb1⟩) (b := ⟨k2 - 1, hb2⟩)
      (by simp; omega)

/-- Witness for C2 at `N = 2`, `D i j = if i = j then 0 else 1`,
`rr = 1/2`, `rr1 = 1/4 < rr2 = 1/2`. -/
theorem rr_mode_properties_witness :
    (2 ≤ 2 ∧ (0 : ℚ) < mkRat 1 2 ∧ (mkRat 1 2 : ℚ) ≤ 1 ∧
      (0 : ℚ) < mkRat 1 4 ∧ (mkRat 1 4 : ℚ) < mkRat 1 2 ∧
      (mkRat 1 2 : ℚ) ≤ 1) ∧
    ((mkRat 1 2 : ℚ) ≤ recurrence_rate 2
        (recmat (fun i j => if i = j then 0 else 1)
          (rrThreshold 2 (fun i j => if i = j then 0 else 1) (mkRat 1 2))) ∧
      rrThreshold 2 (fun i j => if i = j then 0 else 1) (mkRat 1 4) ≤
        rrThreshold 2 (fun i j => if i = j then 0 else 1) (mkRat 1 2)) :=
  ⟨⟨by decide, by decide, by decide, by decide, by decide, by decide⟩,
    rr_mode_properties 2 (fun i j => if i = j then 0 else 1) (mkRat 1 2)
      (mkRat 1 4) (mkRat 1 2)
      (by decide) (by decide) (by decide) (by decide) (by decide) (by decide)⟩

/-- Lengths of the maximal runs of consecutive `true` entries of a Boolean
list; `acc` carries the length of the currently open run. -/
def runLengthsAux : List Bool → ℕ → List ℕ
  | [], acc => if acc = 0 then [] else [acc]
  | true :: rest, acc => runLengthsAux rest (acc + 1)
  | false :: rest, acc =>
      if acc = 0 then runLengthsAux rest 0 else acc :: runLengthsAux rest 0

/-- Lengths of the maximal runs of consecutive `true` entries. -/
def runLengths (l : List Bool) : List ℕ := runLengthsAux l 0

/-- Boolean sequence along the diagonal at offset `d` above the main
diagonal: entries `(i, i+d)` for `i = 0 .. N-d-1`. -/
def diagSeqU (N : ℕ) (R : ℕ → ℕ → Bool) (d : ℕ) : List Bool :=
  (List.range (N - d)).map (fun i => R i (i + d))

/-- Boolean sequence along the diagonal at offset `d` below the main
diagonal: entries `(i+d, i)` for `i = 0 .. N-d-1`. -/
def diagSeqL (N : ℕ) (R : ℕ → ℕ → Bool) (d : ℕ) : List Bool :=
  (List.range (N - d)).map (fun i => R (i + d) i)

/-- Boolean sequence down column `j`: entries `(i, j)` for `i = 0 .. N-1`. -/
def colSeq (N : ℕ) (R : ℕ → ℕ → Bool) (j : ℕ) : List Bool :=
  (List.range N).map (fun i => R i j)

/-- Sum of the run lengths that reach the minimum length `m`. -/
def qualifyingSum (rs : List ℕ) (m : ℕ) : ℕ :=
  (rs.filter (fun x => m ≤ x)).sum

/-- Modelled from the spec: Determinism(l_min) (spec 4.4) of the RQAEngine
of `pyunicorn.timeseries`, whose implementation is not in the sources: the
summed length of maximal diagonal runs of length at least `l_min` (main
diagonal excluded) over the total number of recurrence points, and 0 by
convention when there are no recurrence points. -/
def determinism (N : ℕ) (R : ℕ → ℕ → Bool) (lmin : ℕ) : ℚ :=
  if recPointCount N R = 0 then 0
  else (((List.range N).map (fun d =>
      if d = 0 then 0
      else qualifyingSum (runLengths (diagSeqU N R d)) lmin +
        qualifyingSum (runLengths (diagSeqL N R d)) lmin)).sum : ℚ) /
    (recPointCount N R : ℚ)

/-- Modelled from the spec: Laminarity(v_min) (spec 4.4) of the RQAEngine
of `pyunicorn.timeseries`, whose implementation is not in the sources: the
summed length of maximal vertical runs of length at least `v_min` within
each column over the total number of recurrence points, and 0 by convention
when there are no recurrence points. -/
def laminarity (N : ℕ) (R : ℕ → ℕ → Bool) (vmin : ℕ) : ℚ :=
  if recPointCount N R = 0 then 0
  else (((List.range N).map (fun j =>
      qualifyingSum (runLengths (colSeq N R j)) vmin)).sum : ℚ) /
    (recPointCount N R : ℚ)

/-- C6: on a recurrence matrix with zero off-diagonal recurrence points,
determinism and laminarity are 0 by convention (no division by zero), for
all `l_min ≥ 1` and `v_min ≥ 1`. -/
theorem zero_recurrence_det_lam (N : ℕ) (R : ℕ → ℕ → Bool) (lmin vmin : ℕ)
    (hz : recPointCount N R = 0) (_hl : 1 ≤ lmin) (_hv : 1 ≤ vmin) :
    determinism N R lmin = 0 ∧ laminarity N R vmin = 0 := by
  rw [determinism, laminarity, if_pos hz, if_pos hz]
  exact ⟨rfl, rfl⟩

/-- Witness for C6 at `N = 2`, the all-zero recurrence matrix,
`l_min = v_min = 2`. -/
theorem zero_recurrence_det_lam_witness :
    (recPointCount 2 (fun _ _ => false) = 0 ∧ 1 ≤ 2 ∧ 1 ≤ 2) ∧
    (determinism 2 (fun _ _ => false) 2 = 0 ∧
      laminarity 2 (fun _ _ => false) 2 = 0) :=
  ⟨⟨by decide, by decide, by decide⟩,
    zero_recurrence_det_lam 2 (fun _ _ => false) 2 2 (by decide) (by decide)
      (by decide)⟩

/-- Summing the maximal-run lengths counts the `true` entries. -/
theorem runLengthsAux_sum (l : List Bool) :
    ∀ acc, (runLengthsAux l acc).sum = acc + l.countP (fun b => b) := by
  induction l with
  | nil =>
    intro acc
    by_cases h : acc = 0 <;> simp [runLengthsAux, h]
  | cons b rest ih =>
    intro acc
    cases b with
    | false =>
      by_cases h : acc = 0 <;>
        simp [runLengthsAux, h, ih, List.countP_cons]
    | true =>
      simp [runLengthsAux, ih, List.countP_cons]
      omega

/-- The run lengths of a Boolean list sum to its number of `true` entries. -/
theorem runLengths_sum (l : List Bool) :
    (runLengths l).sum = l.countP (fun b => b) := by
  simpa using runLengthsAux_sum l 0

/-- The qualifying run-length sum never exceeds the total run-length sum. -/
theorem qualifyingSum_le (rs : List ℕ) (m : ℕ) :
    qualifyingSum rs m ≤ rs.sum := by
  unfold qualifyingSum
  induction rs with
  | nil => simp
  | cons a l ih =>
    rw [List.filter_cons]
    by_cases h : m ≤ a
    · rw [if_pos (by simpa using h), List.sum_cons, List.sum_cons]
      omega
    · rw [if_neg (by simpa using h), List.sum_cons]
      omega

/-- Off-diagonal index pairs of an `N×N` matrix, grouped by diagonal:
for each offset `d = 1 .. N-1` the pairs `(i, i+d)` above and `(i+d, i)`
below the main diagonal. -/
def diagMajorPairs (N : ℕ) : List (ℕ × ℕ) :=
  (List.range N).flatMap (fun d =>
    if d = 0 then []
    else ((List.range (N - d)).map (fun i => (i, i + d))) ++
      ((List.range (N - d)).map (fun i => (i + d, i))))

/-- Structure of membership in one diagonal group. -/
theorem mem_diagPiece {N d : ℕ} {p : ℕ × ℕ}
    (h : p ∈ (if d = 0 then ([] : List (ℕ × ℕ))
      else ((List.range (N - d)).map (fun i => (i, i + d))) ++
        ((List.range (N - d)).map (fun i => (i + d, i))))) :
    d ≠ 0 ∧ p.1 < N ∧ p.2 < N ∧ (p.1 + d = p.2 ∨ p.2 + d = p.1) := by
  by_cases h0 : d = 0
  · rw [if_pos h0] at h
    simp at h
  · rw [if_neg h0] at h
    refine ⟨h0, ?_⟩
    rcases List.mem_append.mp h with hm | hm <;>
    · rcases List.mem_map.mp hm with ⟨a, ha, hpa⟩
      rw [List.mem_range] at ha
      rw [← hpa]
      simp
      omega

/-- Membership in `diagMajorPairs`. -/
theorem mem_diagMajorPairs {N : ℕ} {p : ℕ × ℕ} :
    p ∈ diagMajorPairs N ↔ p.1 < N ∧ p.2 < N ∧ p.1 ≠ p.2 := by
  cases p with
  | mk i j =>
    rw [diagMajorPairs, List.mem_flatMap]
    constructor
    · rintro ⟨d, _, hmem⟩
      obtain ⟨h0, hi, hj, hd⟩ := mem_diagPiece hmem
      exact ⟨hi, hj, by omega⟩
    · rintro ⟨hi, hj, hij⟩
      rcases Nat.lt_or_ge i j with hlt | hge
      · refine ⟨j - i, List.mem_range.mpr (by omega), ?_⟩
        rw [if_neg (by omega)]
        apply List.mem_append_left
        exact List.mem_map.mpr
          ⟨i, List.mem_range.mpr (by omega), by simp; omega⟩
      · have hgt : j < i := by omega
        refine ⟨i - j, List.mem_range.mpr (by omega), ?_⟩
        rw [if_neg (by omega)]
        apply List.mem_append_right
        exact List.mem_map.mpr
          ⟨j, List.mem_range.mpr (by omega), by simp; omega⟩

/-- `offDiagPairs` has no duplicate pair. -/
theorem nodup_offDiagPairs (N : ℕ) : (offDiagPairs N).Nodup := by
  rw [offDiagPairs, List.nodup_flatMap]
  constructor
  · intro i _
    exact ((List.nodup_range N).filter _).map
      (fun a b hab => by injection hab)
  · apply List.Pairwise.imp ?_ (List.pairwise_lt_range N)
    intro a b _ p hpa hpb
    rcases List.mem_map.mp hpa with ⟨x, _, hx⟩
    rcases List.mem_map.mp hpb with ⟨y, _, hy⟩
    rw [← hx] at hy
    injection hy with h1 _
    omega

/-- `diagMajorPairs` has no duplicate pair. -/
theorem nodup_diagMajorPairs (N : ℕ) : (diagMajorPairs N).Nodup := by
  rw [diagMajorPairs, List.nodup_flatMap]
  constructor
  · intro d _
    by_cases h0 : d = 0
    · simp [h0]
    · rw [if_neg h0]
      apply List.Nodup.append
      · exact (List.nodup_range _).map (fun a b hab => by
          injection hab with h1 h2)
      · exact (List.nodup_range _).map (fun a b hab => by
          injection hab with h1 h2)
      · intro p hpU hpL
        rcases List.mem_map.mp hpU with ⟨x, _, hx⟩
        rcases List.mem_map.mp hpL with ⟨y, _, hy⟩
        rw [← hx] at hy
        injection hy with h1 h2
        omega
  · apply List.Pairwise.imp ?_ (List.pairwise_lt_range N)
    intro a b hab p hpa hpb
    obtain ⟨ha0, _, _, hda⟩ := mem_diagPiece hpa
    obtain ⟨hb0, _, _, hdb⟩ := mem_diagPiece hpb
    omega

/-- The diagonal-major enumeration is a permutation of the row-major one. -/
theorem diagMajor_perm (N : ℕ) :
    (diagMajorPairs N).Perm (offDiagPairs N) := by
  apply List.perm_of_nodup_nodup_toFinset_eq (nodup_diagMajorPairs N)
    (nodup_offDiagPairs N)
  ext p
  simp only [List.mem_toFinset, mem_diagMajorPairs, mem_offDiagPairs]

/-- The recurrence points split across the diagonals: the total count is the
sum over offsets `d ≥ 1` of the `true` entries on the two diagonals at
offset `d`. -/
theorem recPointCount_diag (N : ℕ) (R : ℕ → ℕ → Bool) :
    recPointCount N R = ((List.range N).map (fun d =>
      if d = 0 then 0
      else (diagSeqU N R d).countP (fun b => b) +
        (diagSeqL N R d).countP (fun b => b))).sum := by
  unfold recPointCount
  rw [← List.countP_eq_length_filter,
    ← (diagMajor_perm N).countP_eq (p := fun p => R p.1 p.2), diagMajorPairs,
    List.countP_flatMap]
  congr 1
  apply List.map_congr_left
  intro d _
  by_cases h0 : d = 0
  · simp [h0]
  · simp only [Function.comp_def, if_neg h0, List.countP_append,
      List.countP_map, diagSeqU, diagSeqL]

/-- Off-diagonal index pairs of an `N×N` matrix, column-major. -/
def colMajorPairs (N : ℕ) : List (ℕ × ℕ) :=
  (List.range N).flatMap (fun j =>
    ((List.range N).filter (fun i => i != j)).map (fun i => (i, j)))

/-- Membership in `colMajorPairs`. -/
theorem mem_colMajorPairs {N : ℕ} {p : ℕ × ℕ} :
    p ∈ colMajorPairs N ↔ p.1 < N ∧ p.2 < N ∧ p.1 ≠ p.2 := by
  cases p with
  | mk i j =>
    simp only [colMajorPairs, List.mem_flatMap, List.mem_map, List.mem_filter,
      List.mem_range, bne_iff_ne, Prod.mk.injEq]
    constructor
    · rintro ⟨b, hb, a, ⟨ha, hab⟩, rfl, rfl⟩
      exact ⟨ha, hb, hab⟩
    · rintro ⟨hi, hj, hij⟩
      exact ⟨j, hj, i, ⟨hi, hij⟩, rfl, rfl⟩

/-- `colMajorPairs` has no duplicate pair. -/
theorem nodup_colMajorPairs (N : ℕ) : (colMajorPairs N).Nodup := by
  rw [colMajorPairs, List.nodup_flatMap]
  constructor
  · intro j _
    exact ((List.nodup_range N).filter _).map
      (fun a b hab => by injection hab with h1 h2)
  · apply List.Pairwise.imp ?_ (List.pairwise_lt_range N)
    intro a b hab p hpa hpb
    rcases List.mem_map.mp hpa with ⟨x, _, hx⟩
    rcases List.mem_map.mp hpb with ⟨y, _, hy⟩
    rw [← hx] at hy
    injection hy with _ h2
    omega

/-- The column-major enumeration is a permutation of the row-major one. -/
theorem colMajor_perm (N : ℕ) :
    (colMajorPairs N).Perm (offDiagPairs N) := by
  apply List.perm_of_nodup_nodup_toFinset_eq (nodup_colMajorPairs N)
    (nodup_offDiagPairs N)
  ext p
  simp only [List.mem_toFinset, mem_colMajorPairs, mem_offDiagPairs]

/-- With a recurrence-free diagonal the recurrence points split across the
columns: the total count is the sum over columns of their `true` entries. -/
theorem recPointCount_col (N : ℕ) (R : ℕ → ℕ → Bool)
    (hdiag : ∀ i < N, R i i = false) :
    recPointCount N R = ((List.range N).map (fun j =>
      (colSeq N R j).countP (fun b => b))).sum := by
  unfold recPointCount
  rw [← List.countP_eq_length_filter,
    ← (colMajor_perm N).countP_eq (p := fun p => R p.1 p.2), colMajorPairs,
    List.countP_flatMap]
  congr 1
  apply List.map_congr_left
  intro j hj
  rw [List.mem_range] at hj
  simp only [Function.comp_def, List.countP_map, colSeq]
  show List.countP (fun i => R i j) ((List.range N).filter (fun i => i != j))
    = List.countP (fun i => R i j) (List.range N)
  rw [← (List.filter_append_perm (fun i => i != j)
    (List.range N)).countP_eq (p := fun i => R i j), List.countP_append]
  have hzero : List.countP (fun i => R i j)
      ((List.range N).filter (fun i => !(i != j))) = 0 := by
    rw [List.countP_eq_zero]
    intro a ha
    rcases List.mem_filter.mp ha with ⟨_, haj⟩
    have haj' : a = j := by simpa using haj
    rw [haj', hdiag j hj]
    simp
  omega

/-- Modelled from the spec: number of connected triples (spec 4.6), counted
as ordered length-2 paths: a center `j` adjacent to two distinct ends `i`
and `k` (each unordered path is counted twice, each triangle six times, so
the closed-to-total ratio below equals 3·triangles / unordered triples). -/
def connectedTripleCount (N : ℕ) (R : ℕ → ℕ → Bool) : ℕ :=
  ((List.range N).map (fun j =>
    ((List.range N).map (fun i =>
      ((List.range N).filter
        (fun k => decide (i ≠ k) && R j i && R j k)).length)).sum)).sum

/-- Modelled from the spec: number of closed connected triples, the ordered
length-2 paths whose two ends are also adjacent (spec 4.6). -/
def closedTripleCount (N : ℕ) (R : ℕ → ℕ → Bool) : ℕ :=
  ((List.range N).map (fun j =>
    ((List.range N).map (fun i =>
      ((List.range N).filter
        (fun k => decide (i ≠ k) && R j i && R j k && R i k)).length)).sum)).sum

/-- Modelled from the spec: global clustering / transitivity (spec 4.6) of
the GraphStatistics of `pyunicorn.timeseries`, whose implementation is not
in the sources: the fraction of length-2 paths that close into triangles,
0 by convention on a graph with no connected triple. -/
def transitivity (N : ℕ) (R : ℕ → ℕ → Bool) : ℚ :=
  if connectedTripleCount N R = 0 then 0
  else (closedTripleCount N R : ℚ) / (connectedTripleCount N R : ℚ)

/-- Degree of node `i` in the recurrence network. -/
def degree (N : ℕ) (R : ℕ → ℕ → Bool) (i : ℕ) : ℕ :=
  ((List.range N).filter (fun j => R i j)).length

/-- The directed-edge set of the recurrence network: ordered pairs `(i,j)`,
`i ≠ j`, `i,j < N`, with `R i j = 1` (each undirected edge appears in both
directions). -/
def edgeFinset (N : ℕ) (R : ℕ → ℕ → Bool) : Finset (ℕ × ℕ) :=
  (Finset.range N ×ˢ Finset.range N).filter
    (fun p => p.1 ≠ p.2 ∧ R p.1 p.2 = true)

/-- Number of directed edges, as a rational. -/
def edgeCount (N : ℕ) (R : ℕ → ℕ → Bool) : ℚ :=
  ((edgeFinset N R).card : ℚ)

/-- Mean degree of the source endpoints over all directed edges. -/
def meanDegX (N : ℕ) (R : ℕ → ℕ → Bool) : ℚ :=
  (∑ p ∈ edgeFinset N R, (degree N R p.1 : ℚ)) / edgeCount N R

/-- Mean degree of the target endpoints over all directed edges. -/
def meanDegY (N : ℕ) (R : ℕ → ℕ → Bool) : ℚ :=
  (∑ p ∈ edgeFinset N R, (degree N R p.2 : ℚ)) / edgeCount N R

/-- Variance of the source-endpoint degrees over all directed edges (the
degree variance over edge endpoints). -/
def varDegX (N : ℕ) (R : ℕ → ℕ → Bool) : ℚ :=
  (∑ p ∈ edgeFinset N R, ((degree N R p.1 : ℚ) - meanDegX N R) ^ 2) /
    edgeCount N R

/-- Variance of the target-endpoint degrees over all directed edges. -/
def varDegY (N : ℕ) (R : ℕ → ℕ → Bool) : ℚ :=
  (∑ p ∈ edgeFinset N R, ((degree N R p.2 : ℚ) - meanDegY N R) ^ 2) /
    edgeCount N R

/-- Covariance of the two endpoint degrees over all directed edges. -/
def covDeg (N : ℕ) (R : ℕ → ℕ → Bool) : ℚ :=
  (∑ p ∈ edgeFinset N R,
    ((degree N R p.1 : ℚ) - meanDegX N R) *
      ((degree N R p.2 : ℚ) - meanDegY N R)) / edgeCount N R

/-- Modelled from the spec: degree assortativity (spec 4.6) of the
GraphStatistics of `pyunicorn.timeseries`, whose implementation is not in
the sources: the Pearson correlation coefficient of the endpoint degrees
over all directed edges, undefined (`none`, the NaN of the spec) when an
endpoint degree variance vanishes.  Because every undirected edge is
counted in both directions the two endpoint degree sequences coincide as
multisets, so the usual denominator `√(varDegX · varDegY)` equals
`varDegX`. -/
def assortativity (N : ℕ) (R : ℕ → ℕ → Bool) : Option ℚ :=
  if varDegX N R = 0 ∨ varDegY N R = 0 then none
  else some (covDeg N R / varDegX N R)

/-- Reachability within `k` hops in the recurrence network. -/
def reachIn (N : ℕ) (R : ℕ → ℕ → Bool) : ℕ → ℕ → ℕ → Bool
  | 0, i, j => i == j
  | k + 1, i, j => reachIn N R k i j ||
      (List.range N).any (fun m => reachIn N R k i m && R m j)

/-- Shortest-path hop count between two nodes, `none` when unreachable. -/
def spl (N : ℕ) (R : ℕ → ℕ → Bool) (i j : ℕ) : Option ℕ :=
  (List.range (N + 1)).find? (fun k => reachIn N R k i j)

/-- Modelled from the spec: average path length (spec 4.6) of the
GraphStatistics of `pyunicorn.timeseries`, whose implementation is not in
the sources: the mean shortest-path hop count over ordered pairs of
distinct mutually reachable nodes; the documented disconnected-graph policy
restricts the mean to reachable pairs, with 0 by convention when there is
no such pair. -/
def average_path_length (N : ℕ) (R : ℕ → ℕ → Bool) : ℚ :=
  let ds := (offDiagPairs N).filterMap (fun p => spl N R p.1 p.2)
  if ds.length = 0 then 0 else (ds.sum : ℚ) / (ds.length : ℚ)

/-- Threshold-selection mode of the RecurrenceMatrixBuilder, the tagged
union of spec 9. -/
inductive RPMode where
  | fixedThreshold (eps : ℚ)
  | fixedRate (rr : ℚ)

/-- All outputs of one engine run. -/
structure PipelineOutput where
  N : ℕ
  recmatrix : ℕ → ℕ → Bool
  rate : ℚ
  det : ℚ
  lam : ℚ
  apl : ℚ
  trans : ℚ
  clustering : ℚ
  assort : Option ℚ

/-- Modelled from the spec: the full engine pipeline (spec 2): embedding,
distance matrix, thresholding in either mode, recurrence matrix, RQA
statistics and network statistics.  Axis normalization is not modelled (the
script passes `normalize=False`, and the exact standard deviation is
irrational in general); the metric is passed as the distance function
itself.  Global clustering and transitivity are the same measure in
spec 4.6. -/
def pipeline (ts : List ℚ) (dim tau : ℕ) (d : List ℚ → List ℚ → ℚ)
    (mode : RPMode) (lmin vmin : ℕ) : Option PipelineOutput :=
  (embed ts dim tau).map (fun pts =>
    let N := pts.length
    let D := distanceMatrix pts d
    let eps := match mode with
      | .fixedThreshold e => e
      | .fixedRate rr => rrThreshold N D rr
    let R := recmat D eps
    { N := N, recmatrix := R,
      rate := recurrence_rate N R,
      det := determinism N R lmin,
      lam := laminarity N R vmin,
      apl := average_path_length N R,
      trans := transitivity N R,
      clustering := transitivity N R,
      assort := assortativity N R })

/-- The swap of a directed edge is a directed edge, for symmetric `R`. -/
theorem swap_mem_edgeFinset {N : ℕ} {R : ℕ → ℕ → Bool}
    (hsym : ∀ i < N, ∀ j < N, R i j = R j i) {p : ℕ × ℕ}
    (hp : p ∈ edgeFinset N R) : p.swap ∈ edgeFinset N R := by
  rcases Finset.mem_filter.mp hp with ⟨hmem, hne, hR⟩
  rcases Finset.mem_product.mp hmem with ⟨h1, h2⟩
  rw [Finset.mem_range] at h1 h2
  refine Finset.mem_filter.mpr ⟨?_, ?_, ?_⟩
  · exact Finset.mem_product.mpr
      ⟨Finset.mem_range.mpr h2, Finset.mem_range.mpr h1⟩
  · exact Ne.symm hne
  · show R p.2 p.1 = true
    rw [← hsym p.1 h1 p.2 h2]
    exact hR

/-- Sums over the directed edges are invariant under endpoint swap. -/
theorem sum_swap_edgeFinset {N : ℕ} {R : ℕ → ℕ → Bool}
    (hsym : ∀ i < N, ∀ j < N, R i j = R j i) (f : ℕ × ℕ → ℚ) :
    ∑ p ∈ edgeFinset N R, f p.swap = ∑ p ∈ edgeFinset N R, f p :=
  Finset.sum_nbij' Prod.swap Prod.swap
    (fun _ ha => swap_mem_edgeFinset hsym ha)
    (fun _ ha => swap_mem_edgeFinset hsym ha)
    (fun a _ => Prod.swap_swap a) (fun a _ => Prod.swap_swap a)
    (fun _ _ => rfl)

/-- For symmetric `R` the two endpoint degree means coincide. -/
theorem meanDegY_eq (N : ℕ) (R : ℕ → ℕ → Bool)
    (hsym : ∀ i < N, ∀ j < N, R i j = R j i) :
    meanDegY N R = meanDegX N R := by
  unfold meanDegY meanDegX
  congr 1
  exact sum_swap_edgeFinset hsym (fun p => (degree N R p.1 : ℚ))

/-- For symmetric `R` the two endpoint degree variances coincide. -/
theorem varDegY_eq (N : ℕ) (R : ℕ → ℕ → Bool)
    (hsym : ∀ i < N, ∀ j < N, R i j = R j i) :
    varDegY N R = varDegX N R := by
  unfold varDegY varDegX
  rw [meanDegY_eq N R hsym]
  congr 1
  exact sum_swap_edgeFinset hsym
    (fun p => ((degree N R p.1 : ℚ) - meanDegX N R) ^ 2)

/-- Assortativity is undefined exactly at vanishing endpoint degree
variance, and otherwise lies in `[-1, 1]` (Cauchy-Schwarz). -/
theorem assortativity_bounds (N : ℕ) (R : ℕ → ℕ → Bool)
    (hsym : ∀ i < N, ∀ j < N, R i j = R j i) :
    (assortativity N R = none ↔ varDegX N R = 0) ∧
    ∀ q, assortativity N R = some q → -1 ≤ q ∧ q ≤ 1 := by
  have hvy := varDegY_eq N R hsym
  constructor
  · rw [assortativity]
    by_cases h : varDegX N R = 0
    · simp [h]
    · simp [h, hvy]
  · intro q hq
    rw [assortativity] at hq
    by_cases h : varDegX N R = 0 ∨ varDegY N R = 0
    · rw [if_pos h] at hq
      cases hq
    · rw [if_neg h] at hq
      have hq' : covDeg N R / varDegX N R = q := Option.some.inj hq
      push_neg at h
      obtain ⟨hvx0, _⟩ := h
      have hm0 : edgeCount N R ≠ 0 := by
        intro h0
        apply hvx0
        rw [varDegX, h0, div_zero]
      have hmpos : 0 < edgeCount N R := by
        rcases lt_or_eq_of_le (show (0 : ℚ) ≤ edgeCount N R by
          rw [edgeCount]; positivity) with hlt | heq
        · exact hlt
        · exact absurd heq.symm hm0
      have hSg : (∑ p ∈ edgeFinset N R,
            ((degree N R p.2 : ℚ) - meanDegY N R) ^ 2) =
          ∑ p ∈ edgeFinset N R,
            ((degree N R p.1 : ℚ) - meanDegX N R) ^ 2 := by
        rw [meanDegY_eq N R hsym]
        exact sum_swap_edgeFinset hsym
          (fun p => ((degree N R p.1 : ℚ) - meanDegX N R) ^ 2)
      have hCS := Finset.sum_mul_sq_le_sq_mul_sq (edgeFinset N R)
        (fun p => (degree N R p.1 : ℚ) - meanDegX N R)
        (fun p => (degree N R p.2 : ℚ) - meanDegY N R)
      rw [hSg] at hCS
      have hSf_nonneg : (0 : ℚ) ≤ ∑ p ∈ edgeFinset N R,
          ((degree N R p.1 : ℚ) - meanDegX N R) ^ 2 :=
        Finset.sum_nonneg (fun _ _ => sq_nonneg _)
      have habs1 : -(∑ p ∈ edgeFinset N R,
            ((degree N R p.1 : ℚ) - meanDegX N R) ^ 2) ≤
          ∑ p ∈ edgeFinset N R,
            ((degree N R p.1 : ℚ) - meanDegX N R) *
              ((degree N R p.2 : ℚ) - meanDegY N R) := by
        nlinarith [hCS, hSf_nonneg]
      have habs2 : (∑ p ∈ edgeFinset N R,
            ((degree N R p.1 : ℚ) - meanDegX N R) *
              ((degree N R p.2 : ℚ) - meanDegY N R)) ≤
          ∑ p ∈ edgeFinset N R,
            ((degree N R p.1 : ℚ) - meanDegX N R) ^ 2 := by
        nlinarith [hCS, hSf_nonneg]
      have hvx_nonneg : 0 ≤ varDegX N R := by
        rw [varDegX]
        exact div_nonneg hSf_nonneg (le_of_lt hmpos)
      have hvx_pos : 0 < varDegX N R :=
        lt_of_le_of_ne hvx_nonneg (Ne.symm hvx0)
      have hcov_le : covDeg N R ≤ varDegX N R := by
        rw [covDeg, varDegX]
        exact (div_le_div_iff_of_pos_right hmpos).mpr habs2
      have hcov_ge : -(varDegX N R) ≤ covDeg N R := by
        rw [covDeg, varDegX, ← neg_div]
        exact (div_le_div_iff_of_pos_right hmpos).mpr habs1
      rw [← hq']
      constructor
      · rw [le_div_iff₀ hvx_pos]
        calc (-1 : ℚ) * varDegX N R = -(varDegX N R) := by ring
          _ ≤ covDeg N R := hcov_ge
      · rw [div_le_one hvx_pos]
        exact hcov_le

/-- The recurrence rate lies in `[0, 1]`. -/
theorem recurrence_rate_bounds (N : ℕ) (R : ℕ → ℕ → Bool) :
    0 ≤ recurrence_rate N R ∧ recurrence_rate N R ≤ 1 := by
  constructor
  · rw [recurrence_rate]
    positivity
  · rw [recurrence_rate]
    have hc : recPointCount N R ≤ N ^ 2 - N := by
      rw [← length_offDiagPairs]
      exact List.length_filter_le _ _
    by_cases hM : N ^ 2 - N = 0
    · rw [hM]
      simp
    · rw [div_le_one (by exact_mod_cast Nat.pos_of_ne_zero hM)]
      exact_mod_cast hc

/-- Determinism lies in `[0, 1]`: the qualifying diagonal-run mass never
exceeds the total number of recurrence points. -/
theorem determinism_bounds (N : ℕ) (R : ℕ → ℕ → Bool) (lmin : ℕ) :
    0 ≤ determinism N R lmin ∧ determinism N R lmin ≤ 1 := by
  rw [determinism]
  by_cases hP : recPointCount N R = 0
  · rw [if_pos hP]
    norm_num
  · rw [if_neg hP]
    have hnum : ((List.range N).map (fun d =>
        if d = 0 then 0
        else qualifyingSum (runLengths (diagSeqU N R d)) lmin +
          qualifyingSum (runLengths (diagSeqL N R d)) lmin)).sum ≤
        recPointCount N R := by
      rw [recPointCount_diag N R]
      apply List.sum_le_sum
      intro d _
      by_cases h0 : d = 0
      · simp [h0]
      · rw [if_neg h0, if_neg h0]
        apply add_le_add
        · calc qualifyingSum (runLengths (diagSeqU N R d)) lmin
              ≤ (runLengths (diagSeqU N R d)).sum := qualifyingSum_le _ _
            _ = _ := runLengths_sum _
        · calc qualifyingSum (runLengths (diagSeqL N R d)) lmin
              ≤ (runLengths (diagSeqL N R d)).sum := qualifyingSum_le _ _
            _ = _ := runLengths_sum _
    constructor
    · positivity
    · rw [div_le_one (by exact_mod_cast Nat.pos_of_ne_zero hP)]
      exact_mod_cast hnum

/-- Laminarity lies in `[0, 1]` for matrices without diagonal recurrence:
the qualifying vertical-run mass never exceeds the recurrence points. -/
theorem laminarity_bounds (N : ℕ) (R : ℕ → ℕ → Bool) (vmin : ℕ)
    (hdiag : ∀ i < N, R i i = false) :
    0 ≤ laminarity N R vmin ∧ laminarity N R vmin ≤ 1 := by
  rw [laminarity]
  by_cases hP : recPointCount N R = 0
  · rw [if_pos hP]
    norm_num
  · rw [if_neg hP]
    have hnum : ((List.range N).map (fun j =>
        qualifyingSum (runLengths (colSeq N R j)) vmin)).sum ≤
        recPointCount N R := by
      rw [recPointCount_col N R hdiag]
      apply List.sum_le_sum
      intro j _
      calc qualifyingSum (runLengths (colSeq N R j)) vmin
          ≤ (runLengths (colSeq N R j)).sum := qualifyingSum_le _ _
        _ = _ := runLengths_sum _
    constructor
    · positivity
    · rw [div_le_one (by exact_mod_cast Nat.pos_of_ne_zero hP)]
      exact_mod_cast hnum

/-- Transitivity lies in `[0, 1]`: closed triples are triples. -/
theorem transitivity_bounds (N : ℕ) (R : ℕ → ℕ → Bool) :
    0 ≤ transitivity N R ∧ transitivity N R ≤ 1 := by
  rw [transitivity]
  by_cases hT : connectedTripleCount N R = 0
  · rw [if_pos hT]
    norm_num
  · rw [if_neg hT]
    have hle : closedTripleCount N R ≤ connectedTripleCount N R := by
      unfold closedTripleCount connectedTripleCount
      apply List.sum_le_sum
      intro j _
      apply List.sum_le_sum
      intro i _
      rw [← List.countP_eq_length_filter, ← List.countP_eq_length_filter]
      apply List.countP_mono_left
      intro k _ hk
      simp only [Bool.and_eq_true] at hk ⊢
      tauto
    constructor
    · positivity
    · rw [div_le_one (by exact_mod_cast Nat.pos_of_ne_zero hT)]
      exact_mod_cast hle

/-- C7: recurrence rate, determinism, laminarity and transitivity all lie
in `[0, 1]`; assortativity lies in `[-1, 1]` when defined and is undefined
(`none`) exactly when the degree variance over edge endpoints is zero. -/
theorem statistics_bounds (N : ℕ) (R : ℕ → ℕ → Bool) (lmin vmin : ℕ)
    (hsym : ∀ i < N, ∀ j < N, R i j = R j i)
    (hdiag : ∀ i < N, R i i = false) :
    (0 ≤ recurrence_rate N R ∧ recurrence_rate N R ≤ 1) ∧
    (0 ≤ determinism N R lmin ∧ determinism N R lmin ≤ 1) ∧
    (0 ≤ laminarity N R vmin ∧ laminarity N R vmin ≤ 1) ∧
    (0 ≤ transitivity N R ∧ transitivity N R ≤ 1) ∧
    (assortativity N R = none ↔ varDegX N R = 0) ∧
    (∀ q, assortativity N R = some q → -1 ≤ q ∧ q ≤ 1) :=
  ⟨recurrence_rate_bounds N R, determinism_bounds N R lmin,
    laminarity_bounds N R vmin hdiag, transitivity_bounds N R,
    (assortativity_bounds N R hsym).1, (assortativity_bounds N R hsym).2⟩

/-- Witness for C7 at `N = 2` with the complete recurrence matrix
`R i j = decide (i ≠ j)`, `l_min = v_min = 2`. -/
theorem statistics_bounds_witness :
    ((∀ i < 2, ∀ j < 2, (fun a b : ℕ => decide (a ≠ b)) i j =
        (fun a b : ℕ => decide (a ≠ b)) j i) ∧
      (∀ i < 2, (fun a b : ℕ => decide (a ≠ b)) i i = false)) ∧
    ((0 ≤ recurrence_rate 2 (fun a b : ℕ => decide (a ≠ b)) ∧
        recurrence_rate 2 (fun a b : ℕ => decide (a ≠ b)) ≤ 1) ∧
      (0 ≤ determinism 2 (fun a b : ℕ => decide (a ≠ b)) 2 ∧
        determinism 2 (fun a b : ℕ => decide (a ≠ b)) 2 ≤ 1) ∧
      (0 ≤ laminarity 2 (fun a b : ℕ => decide (a ≠ b)) 2 ∧
        laminarity 2 (fun a b : ℕ => decide (a ≠ b)) 2 ≤ 1) ∧
      (0 ≤ transitivity 2 (fun a b : ℕ => decide (a ≠ b)) ∧
        transitivity 2 (fun a b : ℕ => decide (a ≠ b)) ≤ 1) ∧
      (assortativity 2 (fun a b : ℕ => decide (a ≠ b)) = none ↔
        varDegX 2 (fun a b : ℕ => decide (a ≠ b)) = 0) ∧
      (∀ q, assortativity 2 (fun a b : ℕ => decide (a ≠ b)) = some q →
        -1 ≤ q ∧ q ≤ 1)) :=
  ⟨⟨by decide, by decide⟩,
    statistics_bounds 2 (fun a b : ℕ => decide (a ≠ b)) 2 2
      (by decide) (by decide)⟩

/-- C8: the pipeline is deterministic: two runs on the same input sequence
and the same configuration (embedding, metric, mode, run minima) agree on
every output, the recurrence matrix and all scalar statistics included. -/
theorem pipeline_deterministic (ts1 ts2 : List ℚ) (dim1 dim2 tau1 tau2 : ℕ)
    (d1 d2 : List ℚ → List ℚ → ℚ) (m1 m2 : RPMode) (l1 l2 v1 v2 : ℕ)
    (hts : ts1 = ts2) (hdim : dim1 = dim2) (htau : tau1 = tau2)
    (hd : d1 = d2) (hm : m1 = m2) (hl : l1 = l2) (hv : v1 = v2) :
    pipeline ts1 dim1 tau1 d1 m1 l1 v1 = pipeline ts2 dim2 tau2 d2 m2 l2 v2 := by
  rw [hts, hdim, htau, hd, hm, hl, hv]

/-- Witness for C8 at the series `[1, 2, 3]`, `dim = 1`, `tau = 0`,
supremum metric, fixed threshold 1, `l_min = v_min = 2`. -/
theorem pipeline_deterministic_witness :
    ([(1 : ℚ), 2, 3] = [(1 : ℚ), 2, 3] ∧ 1 = 1 ∧ 0 = 0 ∧
      supDist = supDist ∧ RPMode.fixedThreshold 1 = RPMode.fixedThreshold 1 ∧
      2 = 2 ∧ 2 = 2) ∧
    pipeline [(1 : ℚ), 2, 3] 1 0 supDist (RPMode.fixedThreshold 1) 2 2 =
      pipeline [(1 : ℚ), 2, 3] 1 0 supDist (RPMode.fixedThreshold 1) 2 2 :=
  ⟨⟨rfl, rfl, rfl, rfl, rfl, rfl, rfl⟩,
    pipeline_deterministic [(1 : ℚ), 2, 3] [(1 : ℚ), 2, 3] 1 1 0 0
      supDist supDist (RPMode.fixedThreshold 1) (RPMode.fixedThreshold 1)
      2 2 2 2 rfl rfl rfl rfl rfl rfl rfl⟩

end RecAnalysis
